import Mathlib

/-!
Verification of bukind/fix-mp3-tag (fix-mp3-tag.go).

Go strings are modeled as byte lists (`GoStr`); `float64` scores are modeled
as `ℚ` (every comparison the program performs on scores is exact at the
values the claims involve).  The external library behavior the program
relies on — `unicode/utf8`, `strings.TrimSpace`, and the golang.org/x/text
charmaps for Windows-1251 and ISO 8859-1 — is embedded faithfully from
those libraries' table data and transform semantics.
-/

set_option maxHeartbeats 1000000
set_option maxRecDepth 10000

namespace FixMp3

/-- A Go string: a sequence of bytes. -/
abbrev GoStr := List Nat

/-- Is `b` a UTF-8 continuation byte (`0x80 ≤ b ≤ 0xBF`)? -/
def utf8Cont (b : Nat) : Bool := 0x80 ≤ b && b ≤ 0xBF

/-- Accepted range of the first continuation byte of a 3-byte sequence
(Go `utf8.acceptRanges`: rejects overlong encodings and surrogates). -/
def utf8AcceptFirst3 (b0 b1 : Nat) : Bool :=
  if b0 = 0xE0 then 0xA0 ≤ b1 && b1 ≤ 0xBF
  else if b0 = 0xED then 0x80 ≤ b1 && b1 ≤ 0x9F
  else utf8Cont b1

/-- Accepted range of the first continuation byte of a 4-byte sequence. -/
def utf8AcceptFirst4 (b0 b1 : Nat) : Bool :=
  if b0 = 0xF0 then 0x90 ≤ b1 && b1 ≤ 0xBF
  else if b0 = 0xF4 then 0x80 ≤ b1 && b1 ≤ 0x8F
  else utf8Cont b1

/-- Go `utf8.DecodeRune` on the front of the byte list: `some (rune, size)`,
or `none` where Go reports `(RuneError, 1)` for an invalid encoding. -/
def utf8DecodeRune : GoStr → Option (Nat × Nat)
  | [] => none
  | b0 :: rest =>
    if b0 < 0x80 then some (b0, 1)
    else if b0 < 0xC2 then none
    else if b0 < 0xE0 then
      match rest with
      | b1 :: _ => if utf8Cont b1 then some ((b0 - 0xC0) * 0x40 + (b1 - 0x80), 2) else none
      | [] => none
    else if b0 < 0xF0 then
      match rest with
      | b1 :: b2 :: _ =>
        if utf8AcceptFirst3 b0 b1 && utf8Cont b2 then
          some ((b0 - 0xE0) * 0x1000 + (b1 - 0x80) * 0x40 + (b2 - 0x80), 3)
        else none
      | _ => none
    else if b0 < 0xF5 then
      match rest with
      | b1 :: b2 :: b3 :: _ =>
        if utf8AcceptFirst4 b0 b1 && utf8Cont b2 && utf8Cont b3 then
          some ((b0 - 0xF0) * 0x40000 + (b1 - 0x80) * 0x1000 + (b2 - 0x80) * 0x40 + (b3 - 0x80), 4)
        else none
      | _ => none
    else none

/-- Recursion engine of Go `utf8.Valid` with explicit fuel: one rune is
consumed per step, so any fuel at least the string length computes the
validity (see `utf8ValidAux_fuel`). -/
def utf8ValidAux : Nat → GoStr → Bool
  | _, [] => true
  | 0, _ :: _ => true
  | fuel + 1, b0 :: rest =>
    match utf8DecodeRune (b0 :: rest) with
    | none => false
    | some (_, k) => utf8ValidAux fuel (rest.drop (k - 1))

/-- Go `utf8.Valid`, equivalently success of `encoding.UTF8Validator` as
called by `countCyr`: the byte string parses as a sequence of well-formed
UTF-8 encodings (no overlong forms, surrogates, or values above U+10FFFF). -/
def utf8Valid (s : GoStr) : Bool := utf8ValidAux s.length s

/-- Recursion engine of Go `range` over a string, with explicit fuel. -/
def utf8RunesAux : Nat → GoStr → List Nat
  | _, [] => []
  | 0, _ :: _ => []
  | fuel + 1, b0 :: rest =>
    match utf8DecodeRune (b0 :: rest) with
    | none => 0xFFFD :: utf8RunesAux fuel rest
    | some (r, k) => r :: utf8RunesAux fuel (rest.drop (k - 1))

/-- The scalar values produced by Go `range` over a string: each well-formed
encoding yields its scalar, an invalid byte yields U+FFFD with width 1
(`countCyr` only ranges over validated strings). -/
def utf8Runes (s : GoStr) : List Nat := utf8RunesAux s.length s

/-- Go `utf8.EncodeRune` for a valid scalar (every rune the charmap decoders
emit is a valid scalar below 0x10000). -/
def utf8EncodeRune (r : Nat) : GoStr :=
  if r < 0x80 then [r]
  else if r < 0x800 then [0xC0 + r / 0x40, 0x80 + r % 0x40]
  else if r < 0x10000 then [0xE0 + r / 0x1000, 0x80 + r / 0x40 % 0x40, 0x80 + r % 0x40]
  else [0xF0 + r / 0x40000, 0x80 + r / 0x1000 % 0x40, 0x80 + r / 0x40 % 0x40, 0x80 + r % 0x40]

/-- The Go string (byte sequence) holding the UTF-8 encoding of a rune list. -/
def utf8Str : List Nat → GoStr
  | [] => []
  | r :: rs => utf8EncodeRune r ++ utf8Str rs

/-- Is the scalar in the accepted set of `countCyr`: ASCII, the core
Cyrillic block U+0410–U+044F, or Ё/ё (U+0401/U+0451)? -/
def goodRune (c : Nat) : Bool :=
  c ≤ 0x7F || (0x410 ≤ c && c ≤ 0x44F) || c = 0x401 || c = 0x451

/-- `countCyr` from fix-mp3-tag.go: 0 for non-UTF-8 input, else the ratio of
accepted scalars, with 1 for the empty string.  The Go `float64` result is
modeled as `ℚ`. -/
def countCyr (s : GoStr) : ℚ :=
  if utf8Valid s then
    let rs := utf8Runes s
    let total := rs.length
    let bad := rs.countP fun c => !goodRune c
    if total = 0 then 1 else ((total - bad : ℕ) : ℚ) / total
  else 0

/-- The Windows-1251 decode table of golang.org/x/text/encoding/charmap
(generated from the WHATWG encoding index; the single unmapped byte 0x98
decodes to U+FFFD, and bytes 0xC0–0xFF decode to U+0410–U+044F). -/
def win1251DecodeByte (b : Nat) : Nat :=
  if b < 0x80 then b
  else if 0xC0 ≤ b then b + 0x350
  else match b with
  | 0x80 => 0x402 | 0x81 => 0x403 | 0x82 => 0x201A | 0x83 => 0x453
  | 0x84 => 0x201E | 0x85 => 0x2026 | 0x86 => 0x2020 | 0x87 => 0x2021
  | 0x88 => 0x20AC | 0x89 => 0x2030 | 0x8A => 0x409 | 0x8B => 0x2039
  | 0x8C => 0x40A | 0x8D => 0x40C | 0x8E => 0x40B | 0x8F => 0x40F
  | 0x90 => 0x452 | 0x91 => 0x2018 | 0x92 => 0x2019 | 0x93 => 0x201C
  | 0x94 => 0x201D | 0x95 => 0x2022 | 0x96 => 0x2013 | 0x97 => 0x2014
  | 0x98 => 0xFFFD | 0x99 => 0x2122 | 0x9A => 0x459 | 0x9B => 0x203A
  | 0x9C => 0x45A | 0x9D => 0x45C | 0x9E => 0x45B | 0x9F => 0x45F
  | 0xA0 => 0xA0 | 0xA1 => 0x40E | 0xA2 => 0x45E | 0xA3 => 0x408
  | 0xA4 => 0xA4 | 0xA5 => 0x490 | 0xA6 => 0xA6 | 0xA7 => 0xA7
  | 0xA8 => 0x401 | 0xA9 => 0xA9 | 0xAA => 0x404 | 0xAB => 0xAB
  | 0xAC => 0xAC | 0xAD => 0xAD | 0xAE => 0xAE | 0xAF => 0x407
  | 0xB0 => 0xB0 | 0xB1 => 0xB1 | 0xB2 => 0x406 | 0xB3 => 0x456
  | 0xB4 => 0x491 | 0xB5 => 0xB5 | 0xB6 => 0xB6 | 0xB7 => 0xB7
  | 0xB8 => 0x451 | 0xB9 => 0x2116 | 0xBA => 0x454 | 0xBB => 0xBB
  | 0xBC => 0x458 | 0xBD => 0x405 | 0xBE => 0x455 | 0xBF => 0x457
  | _ => 0

/-- x/text `Charmap.EncodeRune` for Windows-1251: ASCII fast path, otherwise
the inverse of the decode table.  U+FFFD (which only pads the generated
encode table) is not encodable. -/
def win1251EncodeRune (r : Nat) : Option Nat :=
  if r < 0x80 then some r
  else if r = 0xFFFD then none
  else ((List.range 0x80).find? fun i => win1251DecodeByte (0x80 + i) = r).map (0x80 + ·)

/-- x/text `Charmap.EncodeRune` for ISO 8859-1: bytes are code points. -/
def iso8859EncodeRune (r : Nat) : Option Nat := if r ≤ 0xFF then some r else none

/-- Recursion engine of the x/text charmap encoder, with explicit fuel. -/
def charmapEncodeAux (enc : Nat → Option Nat) : Nat → GoStr → GoStr × Bool
  | _, [] => ([], true)
  | 0, _ :: _ => ([], true)
  | fuel + 1, b0 :: rest =>
    if b0 < 0x80 then
      let p := charmapEncodeAux enc fuel rest
      (b0 :: p.1, p.2)
    else
      match utf8DecodeRune (b0 :: rest) with
      | none => ([], false)
      | some (r, k) =>
        match enc r with
        | none => ([], false)
        | some b =>
          let p := charmapEncodeAux enc fuel (rest.drop (k - 1))
          (b :: p.1, p.2)

/-- x/text charmap encoder (`charmapEncoder.Transform` as surfaced through
`Encoder.String` / `transform.String`): converts UTF-8 input rune by rune
(ASCII fast path for bytes below 0x80, as both charmaps are ASCII
supersets); on an unencodable rune or invalid UTF-8 it stops, returning the
converted prefix together with failure — Go's `(partial result, err)`. -/
def charmapEncode (enc : Nat → Option Nat) (s : GoStr) : GoStr × Bool :=
  charmapEncodeAux enc s.length s

/-- The `StringTrans` interface of fix-mp3-tag.go (the `String` method of
encoding.Decoder/Encoder): Go's `(string, error)` result is modeled as the
result string plus a success flag. -/
def StringTrans := GoStr → GoStr × Bool

/-- `charmap.Windows1251.NewDecoder().String`: every input byte decodes via
the table to a rune re-encoded as UTF-8; the charmap decoder never fails. -/
def winDecoderT : StringTrans :=
  fun s => (utf8Str (s.map win1251DecodeByte), true)

/-- `charmap.Windows1251.NewEncoder().String`. -/
def winEncoderT : StringTrans := charmapEncode win1251EncodeRune

/-- `charmap.ISO8859_1.NewEncoder().String`. -/
def isoEncoderT : StringTrans := charmapEncode iso8859EncodeRune

/-- `decode` from fix-mp3-tag.go: apply the transformations in order.  On a
step failure with a working string longer than 4 bytes, the same step is
retried once on the string with its last byte stripped; a failing retry
aborts the pipeline with an error.  When the failing string has at most
4 bytes the Go code falls through with the step's partial result and the
error is dropped. -/
def decode : GoStr → List StringTrans → Option GoStr
  | src, [] => some src
  | src, f :: rest =>
    let p := f src
    if !p.2 && src.length > 4 then
      let p2 := f src.dropLast
      if !p2.2 then none else decode p2.1 rest
    else decode p.1 rest

/-- The four pipelines of `convertFrames`, in program order:
"win", "enc-iso-win", "iso-win", "iso". -/
def combinations : List (List StringTrans) :=
  [[winDecoderT], [winEncoderT, isoEncoderT, winDecoderT],
   [isoEncoderT, winDecoderT], [isoEncoderT]]

/-- Go `unicode.IsSpace` (the White_Space scalars). -/
def isSpaceRune (r : Nat) : Bool :=
  (9 ≤ r && r ≤ 13) || r = 0x20 || r = 0x85 || r = 0xA0 || r = 0x1680 ||
  (0x2000 ≤ r && r ≤ 0x200A) || r = 0x2028 || r = 0x2029 || r = 0x202F ||
  r = 0x205F || r = 0x3000

/-- Recursion engine of leading-whitespace trimming, with explicit fuel. -/
def trimLeftSpaceAux : Nat → GoStr → GoStr
  | _, [] => []
  | 0, b0 :: rest => b0 :: rest
  | fuel + 1, b0 :: rest =>
    match utf8DecodeRune (b0 :: rest) with
    | none => b0 :: rest
    | some (r, k) =>
      if isSpaceRune r then trimLeftSpaceAux fuel (rest.drop (k - 1)) else b0 :: rest

/-- Leading-whitespace trimming of `strings.TrimSpace`: drop leading space
runes; an invalid byte decodes to U+FFFD, which is not a space, so it stops
the trimming. -/
def trimLeftSpace (s : GoStr) : GoStr := trimLeftSpaceAux s.length s

/-- Go `utf8.RuneStart`. -/
def runeStart (b : Nat) : Bool := !(0x80 ≤ b && b ≤ 0xBF)

/-- The backwards scan of Go `utf8.DecodeLastRune`: the largest index in
`[lim, i]` holding a rune-start byte, if any. -/
def findStart (s : GoStr) (lim : Nat) : Nat → Option Nat
  | 0 => if 0 < lim then none else if runeStart (s.getD 0 0) then some 0 else none
  | i + 1 =>
    if i + 1 < lim then none
    else if runeStart (s.getD (i + 1) 0) then some (i + 1)
    else findStart s lim i

/-- Go `utf8.DecodeLastRune`: scan back (at most 4 bytes) for a rune start,
decode there, and check the decoding ends exactly at the end of the string. -/
def decodeLastRune (s : GoStr) : Nat × Nat :=
  match s.getLast? with
  | none => (0xFFFD, 0)
  | some last =>
    if last < 0x80 then (last, 1)
    else
      let n := s.length
      let lim := n - 4
      let start :=
        match (if 2 ≤ n then findStart s lim (n - 2) else none) with
        | some i => i
        | none => lim - 1
      match utf8DecodeRune (s.drop start) with
      | some (r, sz) => if start + sz = n then (r, sz) else (0xFFFD, 1)
      | none => (0xFFFD, 1)

/-- Trailing-whitespace trimming of `strings.TrimSpace`, with the number of
remaining steps made explicit as fuel (each trimming step removes at least
one byte, so `s.length` steps always suffice; rune sizes reported by
`decodeLastRune` on a nonempty string are at least 1, so clamping with
`max 1` does not change the result). -/
def trimRightSpaceF : Nat → GoStr → GoStr
  | _, [] => []
  | 0, b0 :: rest => b0 :: rest
  | fuel + 1, b0 :: rest =>
    let p := decodeLastRune (b0 :: rest)
    if isSpaceRune p.1 then
      trimRightSpaceF fuel ((b0 :: rest).take ((b0 :: rest).length - max p.2 1))
    else b0 :: rest

/-- Trailing-whitespace trimming of `strings.TrimSpace`. -/
def trimRightSpace (s : GoStr) : GoStr := trimRightSpaceF s.length s

/-- Go `strings.TrimSpace`. -/
def trimSpace (s : GoStr) : GoStr := trimRightSpace (trimLeftSpace s)

/-- id3v2 encodings are compared by key (`Encoding.Equals`): ISO-8859-1 has
key 0. -/
def EncodingISO : Nat := 0

/-- id3v2 `EncodingUTF8` (key 3). -/
def EncodingUTF8 : Nat := 3

/-- `id3v2.TextFrame`, restricted to the fields the program reads. -/
structure TextFrame where
  Encoding : Nat
  Text : GoStr
deriving DecidableEq

/-- A framer stored under a tag key: either a text frame or some other
framer type. -/
inductive Framer where
  | text (tf : TextFrame)
  | other
deriving DecidableEq

/-- The inner loop of `extractFrames` over the framers of one key: a
non-text framer breaks, an empty, non-ISO, or already-correct text frame is
skipped, and the first remaining frame is taken. -/
def pickFrame : List Framer → Option TextFrame
  | [] => none
  | Framer.other :: _ => none
  | Framer.text tf :: rest =>
    if tf.Text = [] then pickFrame rest
    else if !(tf.Encoding = EncodingISO) then pickFrame rest
    else if 1 ≤ countCyr (trimSpace tf.Text) then pickFrame rest
    else some tf

/-- `extractFrames`: the eligible fields, keyed like the Go map. -/
def extractFrames {κ : Type} (tags : List (κ × List Framer)) : List (κ × TextFrame) :=
  tags.filterMap fun p => (pickFrame p.2).map fun tf => (p.1, tf)

/-- One pipeline execution inside `convertFrames`: on success the best
goodness is updated and the result is collected when it clears the
threshold. -/
def searchStep (t : ℚ) (value : GoStr) (acc : List GoStr × ℚ)
    (tlist : List StringTrans) : List GoStr × ℚ :=
  match decode value tlist with
  | none => acc
  | some val =>
    let g := countCyr val
    let best := if g > acc.2 then g else acc.2
    if g < t then (acc.1, best) else (acc.1 ++ [val], best)

/-- Candidate Search for one already-trimmed value: the qualifying results
in pipeline order together with the best goodness seen. -/
def runSearch (t : ℚ) (value : GoStr) : List GoStr × ℚ :=
  combinations.foldl (searchStep t value) ([], 0)

/-- The per-frame body of `convertFrames`: the corrected frame when exactly
one candidate qualifies, nothing on zero ("could not convert") or several
("ambiguous conversion") candidates. -/
def convertFrame (t : ℚ) (tf : TextFrame) : Option TextFrame :=
  match runSearch t (trimSpace tf.Text) with
  | ([v], _) => some ⟨EncodingUTF8, v⟩
  | _ => none

/-- `convertFrames`: the Correction Set. -/
def convertFrames {κ : Type} (t : ℚ) (frames : List (κ × TextFrame)) :
    List (κ × TextFrame) :=
  frames.filterMap fun p => (convertFrame t p.2).map fun tf => (p.1, tf)

/-- Go map indexing, for maps represented as association lists with distinct
keys. -/
def mapLookup {κ α : Type} [DecidableEq κ] (k : κ) : List (κ × α) → Option α
  | [] => none
  | p :: rest => if p.1 = k then some p.2 else mapLookup k rest

/-- Outcome of `main` up to the behavior the claims address: either the
fatal threshold ConfigurationError (nonzero exit, no field processed) or a
completed run carrying the Correction Set. -/
inductive MainResult (κ : Type) where
  | configError
  | ran (out : List (κ × TextFrame))
deriving DecidableEq

/-- `main`'s threshold validation followed by field extraction and
conversion for one tag. -/
def mainModel {κ : Type} (t : ℚ) (tags : List (κ × List Framer)) : MainResult κ :=
  if t < 1 / 10 ∨ 1 < t then MainResult.configError
  else MainResult.ran (convertFrames t (extractFrames tags))

/-- ISO 8859-1 decoding of a byte string: every byte is the code point of
the same value (the string is their UTF-8 encoding). -/
def iso8859DecodeStr (bs : GoStr) : GoStr := utf8Str bs

/-- The mis-encoded text of the round-trip property: `T` (a rune list)
encoded into Windows-1251 bytes, those bytes then decoded as ISO 8859-1. -/
def mangle (T : List Nat) : GoStr :=
  iso8859DecodeStr (charmapEncode win1251EncodeRune (utf8Str T)).1

/-! ### Fuel irrelevance and one-rune unfolding for the UTF-8 scanners -/

theorem utf8ValidAux_fuel :
    ∀ (n m : Nat) (s : GoStr), s.length ≤ n → s.length ≤ m →
      utf8ValidAux n s = utf8ValidAux m s := by
  intro n
  induction n with
  | zero =>
    intro m s hn _
    have hs : s = [] := List.eq_nil_of_length_eq_zero (Nat.le_zero.mp hn)
    subst hs
    cases m <;> rfl
  | succ n ih =>
    intro m s hn hm
    cases s with
    | nil => cases m <;> rfl
    | cons b0 rest =>
      cases m with
      | zero => simp at hm
      | succ m =>
        simp only [utf8ValidAux]
        cases h : utf8DecodeRune (b0 :: rest) with
        | none => rfl
        | some rk =>
          obtain ⟨r, k⟩ := rk
          simp only [List.length_cons] at hn hm
          exact ih m (rest.drop (k - 1)) (by simp [List.length_drop]; omega)
            (by simp [List.length_drop]; omega)

theorem utf8RunesAux_fuel :
    ∀ (n m : Nat) (s : GoStr), s.length ≤ n → s.length ≤ m →
      utf8RunesAux n s = utf8RunesAux m s := by
  intro n
  induction n with
  | zero =>
    intro m s hn _
    have hs : s = [] := List.eq_nil_of_length_eq_zero (Nat.le_zero.mp hn)
    subst hs
    cases m <;> rfl
  | succ n ih =>
    intro m s hn hm
    cases s with
    | nil => cases m <;> rfl
    | cons b0 rest =>
      cases m with
      | zero => simp at hm
      | succ m =>
        simp only [utf8RunesAux]
        simp only [List.length_cons] at hn hm
        cases h : utf8DecodeRune (b0 :: rest) with
        | none => simp [ih m rest (by omega) (by omega)]
        | some rk =>
          obtain ⟨r, k⟩ := rk
          simp [ih m (rest.drop (k - 1)) (by simp [List.length_drop]; omega)
            (by simp [List.length_drop]; omega)]

theorem charmapEncodeAux_fuel (enc : Nat → Option Nat) :
    ∀ (n m : Nat) (s : GoStr), s.length ≤ n → s.length ≤ m →
      charmapEncodeAux enc n s = charmapEncodeAux enc m s := by
  intro n
  induction n with
  | zero =>
    intro m s hn _
    have hs : s = [] := List.eq_nil_of_length_eq_zero (Nat.le_zero.mp hn)
    subst hs
    cases m <;> rfl
  | succ n ih =>
    intro m s hn hm
    cases s with
    | nil => cases m <;> rfl
    | cons b0 rest =>
      cases m with
      | zero => simp at hm
      | succ m =>
        simp only [charmapEncodeAux]
        simp only [List.length_cons] at hn hm
        by_cases hb : b0 < 0x80
        · simp only [if_pos hb]
          rw [ih m rest (by omega) (by omega)]
        · simp only [if_neg hb]
          cases h : utf8DecodeRune (b0 :: rest) with
          | none => rfl
          | some rk =>
            obtain ⟨r, k⟩ := rk
            have hrec := ih m (rest.drop (k - 1)) (by simp [List.length_drop]; omega)
              (by simp [List.length_drop]; omega)
            cases henc : enc r <;> simp [henc, hrec]

theorem trimLeftSpaceAux_fuel :
    ∀ (n m : Nat) (s : GoStr), s.length ≤ n → s.length ≤ m →
      trimLeftSpaceAux n s = trimLeftSpaceAux m s := by
  intro n
  induction n with
  | zero =>
    intro m s hn _
    have hs : s = [] := List.eq_nil_of_length_eq_zero (Nat.le_zero.mp hn)
    subst hs
    cases m <;> rfl
  | succ n ih =>
    intro m s hn hm
    cases s with
    | nil => cases m <;> rfl
    | cons b0 rest =>
      cases m with
      | zero => simp at hm
      | succ m =>
        simp only [trimLeftSpaceAux]
        simp only [List.length_cons] at hn hm
        cases h : utf8DecodeRune (b0 :: rest) with
        | none => rfl
        | some rk =>
          obtain ⟨r, k⟩ := rk
          by_cases hs : isSpaceRune r
          · simp only [if_pos hs]
            exact ih m (rest.drop (k - 1)) (by simp [List.length_drop]; omega)
              (by simp [List.length_drop]; omega)
          · simp only [if_neg hs]

theorem utf8Valid_cons (b0 : Nat) (rest : GoStr) :
    utf8Valid (b0 :: rest) =
      match utf8DecodeRune (b0 :: rest) with
      | none => false
      | some (_, k) => utf8Valid (rest.drop (k - 1)) := by
  show utf8ValidAux (rest.length + 1) (b0 :: rest) = _
  simp only [utf8ValidAux]
  cases h : utf8DecodeRune (b0 :: rest) with
  | none => rfl
  | some rk =>
    obtain ⟨r, k⟩ := rk
    exact utf8ValidAux_fuel _ _ _ (by simp [List.length_drop]) le_rfl

theorem utf8Runes_cons (b0 : Nat) (rest : GoStr) :
    utf8Runes (b0 :: rest) =
      match utf8DecodeRune (b0 :: rest) with
      | none => 0xFFFD :: utf8Runes rest
      | some (r, k) => r :: utf8Runes (rest.drop (k - 1)) := by
  show utf8RunesAux (rest.length + 1) (b0 :: rest) = _
  simp only [utf8RunesAux]
  cases h : utf8DecodeRune (b0 :: rest) with
  | none => simp [utf8Runes]
  | some rk =>
    obtain ⟨r, k⟩ := rk
    simp [utf8Runes, utf8RunesAux_fuel rest.length ((rest.drop (k - 1)).length)
      (rest.drop (k - 1)) (by simp [List.length_drop]) le_rfl]

theorem charmapEncode_cons (enc : Nat → Option Nat) (b0 : Nat) (rest : GoStr) :
    charmapEncode enc (b0 :: rest) =
      (if b0 < 0x80 then
        ((b0 :: (charmapEncode enc rest).1, (charmapEncode enc rest).2) : GoStr × Bool)
      else
        match utf8DecodeRune (b0 :: rest) with
        | none => ([], false)
        | some (r, k) =>
          match enc r with
          | none => ([], false)
          | some b =>
            (b :: (charmapEncode enc (rest.drop (k - 1))).1,
             (charmapEncode enc (rest.drop (k - 1))).2)) := by
  show charmapEncodeAux enc (rest.length + 1) (b0 :: rest) = _
  simp only [charmapEncodeAux]
  by_cases hb : b0 < 0x80
  · simp [if_pos hb, charmapEncode]
  · simp only [if_neg hb]
    cases h : utf8DecodeRune (b0 :: rest) with
    | none => simp
    | some rk =>
      obtain ⟨r, k⟩ := rk
      have hfuel := charmapEncodeAux_fuel enc rest.length ((rest.drop (k - 1)).length)
        (rest.drop (k - 1)) (by simp [List.length_drop]) le_rfl
      cases henc : enc r <;> simp [henc, charmapEncode, hfuel]

theorem trimLeftSpace_cons (b0 : Nat) (rest : GoStr) :
    trimLeftSpace (b0 :: rest) =
      match utf8DecodeRune (b0 :: rest) with
      | none => b0 :: rest
      | some (r, k) =>
        if isSpaceRune r then trimLeftSpace (rest.drop (k - 1)) else b0 :: rest := by
  show trimLeftSpaceAux (rest.length + 1) (b0 :: rest) = _
  simp only [trimLeftSpaceAux]
  cases h : utf8DecodeRune (b0 :: rest) with
  | none => rfl
  | some rk =>
    obtain ⟨r, k⟩ := rk
    by_cases hs : isSpaceRune r
    · simp only [if_pos hs]
      exact trimLeftSpaceAux_fuel _ _ _ (by simp [List.length_drop]) le_rfl
    · simp only [if_neg hs]

/-! ### Facts about the goodness scorer -/

theorem utf8Runes_eq_nil {s : GoStr} : utf8Runes s = [] ↔ s = [] := by
  cases s with
  | nil => simp [utf8Runes, utf8RunesAux]
  | cons b0 rest =>
    cases h : utf8DecodeRune (b0 :: rest) with
    | none => simp [utf8Runes_cons, h]
    | some rk => obtain ⟨r, k⟩ := rk; simp [utf8Runes_cons, h]

theorem countCyr_nonneg (s : GoStr) : 0 ≤ countCyr s := by
  unfold countCyr
  split
  · dsimp only
    split
    · norm_num
    · positivity
  · exact le_rfl

theorem countCyr_le_one (s : GoStr) : countCyr s ≤ 1 := by
  unfold countCyr
  split
  · dsimp only
    split
    · exact le_rfl
    · rename_i htot
      rw [div_le_one (by exact_mod_cast Nat.pos_of_ne_zero htot)]
      exact_mod_cast Nat.sub_le _ _
  · norm_num

/-! ### Facts about one search step and the best-score fold -/

theorem searchStep_of_none {t : ℚ} {value : GoStr} {acc : List GoStr × ℚ}
    {tl : List StringTrans} (h : decode value tl = none) :
    searchStep t value acc tl = acc := by
  simp [searchStep, h]

theorem searchStep_of_some {t : ℚ} {value val : GoStr} {acc : List GoStr × ℚ}
    {tl : List StringTrans} (h : decode value tl = some val) :
    searchStep t value acc tl =
      (if countCyr val < t then acc.1 else acc.1 ++ [val],
       if countCyr val > acc.2 then countCyr val else acc.2) := by
  simp only [searchStep, h]
  by_cases hg : countCyr val < t <;> simp [hg]

theorem foldl_searchStep_best_mono (t : ℚ) (value : GoStr) :
    ∀ (l : List (List StringTrans)) (acc : List GoStr × ℚ),
      acc.2 ≤ (l.foldl (searchStep t value) acc).2 := by
  intro l
  induction l with
  | nil => intro acc; exact le_rfl
  | cons hd tl ih =>
    intro acc
    refine le_trans ?_ (ih (searchStep t value acc hd))
    cases h : decode value hd with
    | none => rw [searchStep_of_none h]
    | some val =>
      rw [searchStep_of_some h]
      dsimp only
      split
      · exact le_of_lt (by assumption)
      · exact le_rfl

theorem foldl_searchStep_best_le (t : ℚ) (value : GoStr) :
    ∀ (l : List (List StringTrans)) (acc : List GoStr × ℚ) (tl : List StringTrans)
      (val : GoStr), tl ∈ l → decode value tl = some val →
      countCyr val ≤ (l.foldl (searchStep t value) acc).2 := by
  intro l
  induction l with
  | nil => intro acc tl val h _; simp at h
  | cons hd rest ih =>
    intro acc tl val hmem hdec
    rcases List.mem_cons.mp hmem with heq | hmem2
    · subst heq
      refine le_trans ?_ (foldl_searchStep_best_mono t value rest (searchStep t value acc tl))
      rw [searchStep_of_some hdec]
      dsimp only
      split
      · exact le_rfl
      · rename_i hng
        exact le_of_not_lt hng
    · exact ih (searchStep t value acc hd) tl val hmem2 hdec

theorem foldl_searchStep_best_attained (t : ℚ) (value : GoStr) :
    ∀ (l : List (List StringTrans)) (acc : List GoStr × ℚ),
      (l.foldl (searchStep t value) acc).2 = acc.2 ∨
      ∃ tl ∈ l, ∃ val, decode value tl = some val ∧
        countCyr val = (l.foldl (searchStep t value) acc).2 := by
  intro l
  induction l with
  | nil => intro acc; left; rfl
  | cons hd rest ih =>
    intro acc
    simp only [List.foldl_cons]
    rcases ih (searchStep t value acc hd) with h | ⟨tl, htl, val, hdec, hval⟩
    · cases hd2 : decode value hd with
      | none =>
        left
        rw [h, searchStep_of_none hd2]
      | some val =>
        by_cases hg : countCyr val > acc.2
        · right
          refine ⟨hd, List.mem_cons_self _ _, val, hd2, ?_⟩
          rw [h, searchStep_of_some hd2]
          dsimp only
          rw [if_pos hg]
        · left
          rw [h, searchStep_of_some hd2]
          dsimp only
          rw [if_neg hg]
    · right
      exact ⟨tl, List.mem_cons_of_mem _ htl, val, hdec, hval⟩

/-! ### Facts about map lookup through `filterMap` -/

theorem mapLookup_eq_none_iff {κ α : Type} [DecidableEq κ] (k : κ) (l : List (κ × α)) :
    mapLookup k l = none ↔ k ∉ l.map Prod.fst := by
  induction l with
  | nil => simp [mapLookup]
  | cons p rest ih =>
    by_cases hp : p.1 = k
    · simp [mapLookup, hp]
    · have hp2 : ¬ k = p.1 := fun hh => hp hh.symm
      simp [mapLookup, hp, ih, hp2]

theorem mapLookup_filterMap_some {κ α β : Type} [DecidableEq κ] (F : α → Option β)
    (l : List (κ × α)) (k : κ) (a : α) (b : β)
    (hk : mapLookup k l = some a) (hF : F a = some b) :
    mapLookup k (l.filterMap fun p => (F p.2).map fun x => (p.1, x)) = some b := by
  induction l with
  | nil => simp [mapLookup] at hk
  | cons p rest ih =>
    by_cases hp : p.1 = k
    · have hpa : p.2 = a := by
        have := hk
        simp [mapLookup, hp] at this
        exact this
      rw [List.filterMap_cons]
      simp [hpa, hF, mapLookup, hp]
    · have hk2 : mapLookup k rest = some a := by
        have := hk
        simpa [mapLookup, hp] using this
      rw [List.filterMap_cons]
      cases hFp : F p.2 with
      | none => exact ih hk2
      | some b2 => simp [mapLookup, hp]; exact ih hk2

theorem mapLookup_filterMap_not_mem {κ α β : Type} [DecidableEq κ] (F : α → Option β)
    (l : List (κ × α)) (k : κ) (hk : k ∉ l.map Prod.fst) :
    mapLookup k (l.filterMap fun p => (F p.2).map fun x => (p.1, x)) = none := by
  induction l with
  | nil => rfl
  | cons p rest ih =>
    simp only [List.map_cons, List.mem_cons] at hk
    push_neg at hk
    rw [List.filterMap_cons]
    cases hFp : F p.2 with
    | none => exact ih hk.2
    | some b2 =>
      show mapLookup k ((p.1, b2) :: _) = none
      rw [mapLookup]
      rw [if_neg (fun hh => hk.1 (by rw [hh]))]
      exact ih hk.2

theorem mapLookup_filterMap_none {κ α β : Type} [DecidableEq κ] (F : α → Option β)
    (l : List (κ × α)) (k : κ) (a : α) (hnd : (l.map Prod.fst).Nodup)
    (hk : mapLookup k l = some a) (hF : F a = none) :
    mapLookup k (l.filterMap fun p => (F p.2).map fun x => (p.1, x)) = none := by
  induction l with
  | nil => simp [mapLookup] at hk
  | cons p rest ih =>
    rw [List.map_cons, List.nodup_cons] at hnd
    by_cases hp : p.1 = k
    · have hpa : p.2 = a := by
        have := hk
        simp [mapLookup, hp] at this
        exact this
      rw [List.filterMap_cons, hpa, hF]
      exact mapLookup_filterMap_not_mem F rest k (by rw [← hp]; exact hnd.1)
    · have hk2 : mapLookup k rest = some a := by
        have := hk
        simpa [mapLookup, hp] using this
      rw [List.filterMap_cons]
      cases hFp : F p.2 with
      | none => exact ih hnd.2 hk2
      | some b2 =>
        show mapLookup k ((p.1, b2) :: _) = none
        rw [mapLookup, if_neg hp]
        exact ih hnd.2 hk2

/-- The resolution outcome on two or more qualifying candidates is always
"no correction" (the ambiguous branch of the `switch`). -/
theorem convertFrame_eq_none_of_two (t : ℚ) (tf : TextFrame)
    (hmany : 2 ≤ (runSearch t (trimSpace tf.Text)).1.length) :
    convertFrame t tf = none := by
  obtain ⟨x, y, rest, hxy⟩ :
      ∃ x y rest, (runSearch t (trimSpace tf.Text)).1 = x :: y :: rest := by
    rcases h1 : (runSearch t (trimSpace tf.Text)).1 with _ | ⟨x, _ | ⟨y, rest⟩⟩
    · rw [h1] at hmany; simp at hmany
    · rw [h1] at hmany; simp at hmany
    · exact ⟨x, y, rest, rfl⟩
  unfold convertFrame
  rw [show runSearch t (trimSpace tf.Text) =
    (x :: y :: rest, (runSearch t (trimSpace tf.Text)).2) from by rw [← hxy]]

/-- C2: the goodness scorer returns 0 if the input is not well-formed UTF-8;
otherwise it returns 1 for the empty string and `(total - bad) / total` over
the Unicode scalar values otherwise, where a scalar is bad unless it is
ASCII, in U+0410–U+044F, or U+0401/U+0451; the result is always in [0, 1]. -/
theorem claim2_goodness_scorer (s : GoStr) :
    (utf8Valid s = false → countCyr s = 0) ∧
    (utf8Valid s = true → s = [] → countCyr s = 1) ∧
    (utf8Valid s = true → s ≠ [] →
      countCyr s =
        (((utf8Runes s).length - (utf8Runes s).countP (fun c => !goodRune c) : ℕ) : ℚ) /
          ((utf8Runes s).length : ℚ)) ∧
    0 ≤ countCyr s ∧ countCyr s ≤ 1 := by
  refine ⟨?_, ?_, ?_, countCyr_nonneg s, countCyr_le_one s⟩
  · intro h
    simp [countCyr, h]
  · intro _ hs
    subst hs
    rfl
  · intro h hs
    have hne : utf8Runes s ≠ [] := fun hh => hs (utf8Runes_eq_nil.mp hh)
    have hlen : (utf8Runes s).length ≠ 0 := fun hh => hne (List.length_eq_zero.mp hh)
    unfold countCyr
    rw [if_pos h]
    dsimp only
    rw [if_neg hlen]

/-- Witness for C2: the lone byte 0xFF is not UTF-8 and scores 0; the valid
string "а!¨" scores `(total - bad) / total`. -/
theorem claim2_witness :
    countCyr [0xFF] = 0 ∧
    countCyr [0xD0, 0xB0, 0x21, 0xC2, 0xA8] =
      (((utf8Runes [0xD0, 0xB0, 0x21, 0xC2, 0xA8]).length -
        (utf8Runes [0xD0, 0xB0, 0x21, 0xC2, 0xA8]).countP (fun c => !goodRune c) : ℕ) : ℚ) /
        ((utf8Runes [0xD0, 0xB0, 0x21, 0xC2, 0xA8]).length : ℚ) :=
  ⟨(claim2_goodness_scorer [0xFF]).1 (by decide),
   (claim2_goodness_scorer [0xD0, 0xB0, 0x21, 0xC2, 0xA8]).2.2.1 (by decide) (by decide)⟩

/-- C3: with zero qualifying candidates, the reported best score is the
true maximum goodness over all successful pipeline outputs — it bounds the
goodness of every pipeline output (threshold playing no role) and is
attained by one of them unless it is the initial 0. -/
theorem claim3_best_score_max (t : ℚ) (value : GoStr)
    (hempty : (runSearch t value).1 = []) :
    (∀ tl ∈ combinations, ∀ val, decode value tl = some val →
      countCyr val ≤ (runSearch t value).2) ∧
    ((runSearch t value).2 = 0 ∨
      ∃ tl ∈ combinations, ∃ val, decode value tl = some val ∧
        countCyr val = (runSearch t value).2) := by
  constructor
  · intro tl htl val hval
    exact foldl_searchStep_best_le t value combinations ([], 0) tl val htl hval
  · exact foldl_searchStep_best_attained t value combinations ([], 0)

/-- Witness for C3: on the Greek string "αβγ" at threshold 1 no pipeline
qualifies, and the reported best (1/2, from the "win" pipeline) is the
maximum over the pipeline outputs. -/
theorem claim3_witness :
    (∀ tl ∈ combinations, ∀ val, decode [0xCE, 0xB1, 0xCE, 0xB2, 0xCE, 0xB3] tl = some val →
      countCyr val ≤ (runSearch 1 [0xCE, 0xB1, 0xCE, 0xB2, 0xCE, 0xB3]).2) ∧
    ((runSearch 1 [0xCE, 0xB1, 0xCE, 0xB2, 0xCE, 0xB3]).2 = 0 ∨
      ∃ tl ∈ combinations, ∃ val, decode [0xCE, 0xB1, 0xCE, 0xB2, 0xCE, 0xB3] tl = some val ∧
        countCyr val = (runSearch 1 [0xCE, 0xB1, 0xCE, 0xB2, 0xCE, 0xB3]).2) :=
  claim3_best_score_max 1 [0xCE, 0xB1, 0xCE, 0xB2, 0xCE, 0xB3] (by with_unfolding_all rfl)

/-- C4 (code-bug evidence): on the 4-byte field text "аб" the ISO 8859-1
encoding step of the "iso" pipeline fails, yet `decode` does not drop the
pipeline: the `len(src) > 4` guard skips the retry and the code after it
ignores the error, so the pipeline continues with the partial output ""
and reports success — and the empty string even scores goodness 1. -/
theorem claim4_short_failure_swallowed :
    isoEncoderT [0xD0, 0xB0, 0xD0, 0xB1] = ([], false) ∧
    decode [0xD0, 0xB0, 0xD0, 0xB1] [isoEncoderT] = some [] ∧
    countCyr [] = 1 :=
  ⟨by decide, by decide, by decide⟩

/-- C5: when exactly one candidate qualifies for a field, the Correction Set
maps that field to a frame with UTF-8 encoding and the candidate's text. -/
theorem claim5_accepted_single {κ : Type} [DecidableEq κ] (t : ℚ)
    (frames : List (κ × TextFrame)) (k : κ) (tf : TextFrame) (v : GoStr)
    (hk : mapLookup k frames = some tf)
    (hone : (runSearch t (trimSpace tf.Text)).1 = [v]) :
    convertFrame t tf = some ⟨EncodingUTF8, v⟩ ∧
    mapLookup k (convertFrames t frames) = some ⟨EncodingUTF8, v⟩ := by
  have hcf : convertFrame t tf = some ⟨EncodingUTF8, v⟩ := by
    unfold convertFrame
    rw [show runSearch t (trimSpace tf.Text) =
      ([v], (runSearch t (trimSpace tf.Text)).2) from by rw [← hone]]
  exact ⟨hcf, mapLookup_filterMap_some (convertFrame t) frames k tf _ hk hcf⟩

/-- Witness for C5: the mangled "Привет" field is corrected to a UTF-8 frame
holding "Привет". -/
theorem claim5_witness :
    mapLookup 0 (convertFrames 1
      [(0, (⟨EncodingISO,
        [0xC3, 0x8F, 0xC3, 0xB0, 0xC3, 0xA8, 0xC3, 0xA2, 0xC3, 0xA5, 0xC3, 0xB2]⟩ :
        TextFrame))]) =
      some ⟨EncodingUTF8, [0xD0, 0x9F, 0xD1, 0x80, 0xD0, 0xB8, 0xD0, 0xB2, 0xD0, 0xB5, 0xD1, 0x82]⟩ :=
  (claim5_accepted_single 1 _ 0 _ _ (by rfl) (by with_unfolding_all rfl)).2

/-- C6: two or more qualifying candidates make the field ambiguous — no
Correction Set entry is produced for it. -/
theorem claim6_ambiguous_no_entry {κ : Type} [DecidableEq κ] (t : ℚ)
    (frames : List (κ × TextFrame)) (k : κ) (tf : TextFrame)
    (hnd : (frames.map Prod.fst).Nodup)
    (hk : mapLookup k frames = some tf)
    (hmany : 2 ≤ (runSearch t (trimSpace tf.Text)).1.length) :
    convertFrame t tf = none ∧ mapLookup k (convertFrames t frames) = none := by
  have hcf := convertFrame_eq_none_of_two t tf hmany
  exact ⟨hcf, mapLookup_filterMap_none (convertFrame t) frames k tf hnd hk hcf⟩

/-- Witness for C6: for the ASCII field "abcde" all four pipelines qualify,
and no correction entry is produced. -/
theorem claim6_witness :
    convertFrame 1 ⟨EncodingISO, [0x61, 0x62, 0x63, 0x64, 0x65]⟩ = none ∧
    mapLookup 0 (convertFrames 1
      [(0, (⟨EncodingISO, [0x61, 0x62, 0x63, 0x64, 0x65]⟩ : TextFrame))]) = none :=
  claim6_ambiguous_no_entry 1 _ 0 _ (by simp) (by rfl) (by with_unfolding_all decide)

/-- C7: the acceptance comparison of Candidate Search is inclusive — a
successful pipeline output is collected exactly when its goodness is at
least the threshold (`goodness < threshold` skips). -/
theorem claim7_threshold_inclusive (t : ℚ) (value : GoStr) (acc : List GoStr × ℚ)
    (tl : List StringTrans) (val : GoStr) (h : decode value tl = some val) :
    (t ≤ countCyr val → (searchStep t value acc tl).1 = acc.1 ++ [val]) ∧
    (countCyr val < t → (searchStep t value acc tl).1 = acc.1) := by
  constructor
  · intro hge
    rw [searchStep_of_some h]
    dsimp only
    rw [if_neg (not_lt.mpr hge)]
  · intro hlt
    rw [searchStep_of_some h]
    dsimp only
    rw [if_pos hlt]

/-- Witness for C7 at the exact boundary: the "win" pipeline on "а" yields
goodness exactly 1/2, which is accepted at threshold 1/2. -/
theorem claim7_witness :
    (searchStep (1/2) [0xD0, 0xB0] ([], 0) [winDecoderT]).1 =
      [] ++ [utf8Str ([0xD0, 0xB0].map win1251DecodeByte)] :=
  (claim7_threshold_inclusive (1/2) [0xD0, 0xB0] ([], 0) [winDecoderT]
    (utf8Str ([0xD0, 0xB0].map win1251DecodeByte)) (by rfl)).1
    (by with_unfolding_all decide)

/-- C8: a field whose trimmed text already scores at least 1, or whose
declared encoding is not ISO-8859-1, is excluded by the Field Selector and
receives no Correction Set entry. -/
theorem claim8_selector_skips {κ : Type} [DecidableEq κ] (t : ℚ)
    (tags : List (κ × List Framer)) (k : κ) (tf : TextFrame)
    (hnd : (tags.map Prod.fst).Nodup)
    (hk : mapLookup k tags = some [Framer.text tf])
    (hskip : ¬ tf.Encoding = EncodingISO ∨ 1 ≤ countCyr (trimSpace tf.Text)) :
    mapLookup k (extractFrames tags) = none ∧
    mapLookup k (convertFrames t (extractFrames tags)) = none := by
  have hpick : pickFrame [Framer.text tf] = none := by
    by_cases he : tf.Text = []
    · simp [pickFrame, he]
    · rcases hskip with h1 | h2
      · simp [pickFrame, he, h1]
      · by_cases h1 : tf.Encoding = EncodingISO
        · simp [pickFrame, he, h1, h2]
        · simp [pickFrame, he, h1]
  have hex : mapLookup k (extractFrames tags) = none :=
    mapLookup_filterMap_none pickFrame tags k [Framer.text tf] hnd hk hpick
  exact ⟨hex, mapLookup_filterMap_not_mem (convertFrame t) _ k
    ((mapLookup_eq_none_iff k (extractFrames tags)).mp hex)⟩

/-- Witness for C8: a UTF-8-declared field is skipped untouched. -/
theorem claim8_witness :
    mapLookup 0 (extractFrames [(0, [Framer.text ⟨EncodingUTF8, [0x61]⟩])]) = none ∧
    mapLookup 0 (convertFrames 1
      (extractFrames [(0, [Framer.text ⟨EncodingUTF8, [0x61]⟩])])) = none :=
  claim8_selector_skips 1 _ 0 _ (by simp) (by rfl) (Or.inl (by decide))

/-- C9: a threshold below 0.1 or above 1 (for example 0.05 or 1.5) is a
fatal configuration error rejected before any field is processed, while the
boundary values 0.1 and 1 are accepted and the run proceeds. -/
theorem claim9_threshold_validation {κ : Type} (tags : List (κ × List Framer)) :
    (∀ t : ℚ, t < 1/10 ∨ 1 < t → mainModel t tags = MainResult.configError) ∧
    mainModel (1/20 : ℚ) tags = MainResult.configError ∧
    mainModel (3/2 : ℚ) tags = MainResult.configError ∧
    mainModel (1/10 : ℚ) tags = MainResult.ran (convertFrames (1/10) (extractFrames tags)) ∧
    mainModel (1 : ℚ) tags = MainResult.ran (convertFrames 1 (extractFrames tags)) := by
  refine ⟨?_, ?_, ?_, ?_, ?_⟩
  · intro u hu
    simp only [mainModel]
    rw [if_pos hu]
  · simp only [mainModel]
    rw [if_pos (by norm_num)]
  · simp only [mainModel]
    rw [if_pos (by norm_num)]
  · simp only [mainModel]
    rw [if_neg (by norm_num)]
  · simp only [mainModel]
    rw [if_neg (by norm_num)]

/-- Witness for C9: threshold 0.05 is rejected. -/
theorem claim9_witness :
    mainModel (1/20 : ℚ) ([] : List (Nat × List Framer)) = MainResult.configError :=
  (claim9_threshold_validation ([] : List (Nat × List Framer))).1 (1/20) (by norm_num)

/-- C10: qualifying candidates are not deduplicated by text — with two or
more candidates all carrying the identical text, the field is still
ambiguous and the Correction Set has no entry for it. -/
theorem claim10_no_dedup {κ : Type} [DecidableEq κ] (t : ℚ)
    (frames : List (κ × TextFrame)) (k : κ) (tf : TextFrame) (w : GoStr)
    (hnd : (frames.map Prod.fst).Nodup)
    (hk : mapLookup k frames = some tf)
    (hmany : 2 ≤ (runSearch t (trimSpace tf.Text)).1.length)
    (hsame : ∀ v ∈ (runSearch t (trimSpace tf.Text)).1, v = w) :
    convertFrame t tf = none ∧ mapLookup k (convertFrames t frames) = none := by
  have hcf := convertFrame_eq_none_of_two t tf hmany
  exact ⟨hcf, mapLookup_filterMap_none (convertFrame t) frames k tf hnd hk hcf⟩

/-- Witness for C10: on "abcde" all four pipelines qualify with the same
text, and still no correction entry is produced. -/
theorem claim10_witness :
    convertFrame 1 ⟨EncodingISO, [0x61, 0x62, 0x63, 0x64, 0x65]⟩ = none ∧
    mapLookup 1 (convertFrames 1
      [(1, (⟨EncodingISO, [0x61, 0x62, 0x63, 0x64, 0x65]⟩ : TextFrame))]) = none :=
  claim10_no_dedup 1 _ 1 _ [0x61, 0x62, 0x63, 0x64, 0x65] (by simp) (by rfl)
    (by with_unfolding_all decide) (by with_unfolding_all decide)

/-! ### Charmap table facts (checked by evaluation over the byte range) -/

theorem win1251EncodeRune_core :
    ∀ r, r < 0x450 → 0x410 ≤ r → win1251EncodeRune r = some (r - 0x350) := by decide

theorem win1251EncodeRune_c0ff :
    ∀ w, w < 0x100 → 0xC0 ≤ w → win1251EncodeRune w = none := by decide

theorem win1251DecodeByte_scalar :
    ∀ b, b < 0x100 → win1251DecodeByte b < 0x10000 ∧
      ¬(0xD800 ≤ win1251DecodeByte b ∧ win1251DecodeByte b ≤ 0xDFFF) := by decide

theorem win1251DecodeByte_mid_bad :
    ∀ x, x < 0xC0 → 0x80 ≤ x → x ≠ 0xA8 → x ≠ 0xB8 →
      goodRune (win1251DecodeByte x) = false := by decide

theorem win1251DecodeByte_c0ff {b : Nat} (h1 : 0xC0 ≤ b) :
    win1251DecodeByte b = b + 0x350 := by
  unfold win1251DecodeByte
  rw [if_neg (by omega), if_pos h1]

theorem isSpaceRune_c0ff :
    ∀ c, c < 0x100 → 0xC0 ≤ c → isSpaceRune c = false := by decide

/-! ### UTF-8 encode/decode round trip -/

theorem utf8EncodeRune_ne_nil (r : Nat) : utf8EncodeRune r ≠ [] := by
  unfold utf8EncodeRune
  split
  · simp
  · split
    · simp
    · split <;> simp

theorem utf8EncodeRune_c0ff {w : Nat} (h1 : 0xC0 ≤ w) (h2 : w ≤ 0xFF) :
    utf8EncodeRune w = [0xC3, w - 0x40] := by
  unfold utf8EncodeRune
  rw [if_neg (by omega), if_pos (by omega)]
  have hd : w / 0x40 = 3 := by omega
  have hm : w % 0x40 = w - 0xC0 := by omega
  rw [hd, hm]
  norm_num
  omega

theorem utf8DecodeRune_encode_append (r : Nat) (l : GoStr) (h1 : r < 0x10000)
    (h2 : ¬(0xD800 ≤ r ∧ r ≤ 0xDFFF)) :
    utf8DecodeRune (utf8EncodeRune r ++ l) = some (r, (utf8EncodeRune r).length) := by
  by_cases ha : r < 0x80
  · rw [show utf8EncodeRune r = [r] from by unfold utf8EncodeRune; rw [if_pos ha]]
    show utf8DecodeRune (r :: l) = some (r, 1)
    simp only [utf8DecodeRune]
    rw [if_pos ha]
  · by_cases hb : r < 0x800
    · rw [show utf8EncodeRune r = [0xC0 + r / 0x40, 0x80 + r % 0x40] from by
        unfold utf8EncodeRune; rw [if_neg ha, if_pos hb]]
      show utf8DecodeRune ((0xC0 + r / 0x40) :: (0x80 + r % 0x40) :: l) = some (r, 2)
      simp only [utf8DecodeRune]
      rw [if_neg (by omega), if_neg (by omega), if_pos (by omega)]
      have hc : utf8Cont (0x80 + r % 0x40) = true := by
        unfold utf8Cont
        simp only [Bool.and_eq_true, decide_eq_true_eq]
        omega
      rw [if_pos hc]
      have hv : (0xC0 + r / 0x40 - 0xC0) * 0x40 + (0x80 + r % 0x40 - 0x80) = r := by omega
      rw [hv]
    · rw [show utf8EncodeRune r =
          [0xE0 + r / 0x1000, 0x80 + r / 0x40 % 0x40, 0x80 + r % 0x40] from by
        unfold utf8EncodeRune; rw [if_neg ha, if_neg hb, if_pos h1]]
      show utf8DecodeRune
        ((0xE0 + r / 0x1000) :: (0x80 + r / 0x40 % 0x40) :: (0x80 + r % 0x40) :: l) =
        some (r, 3)
      simp only [utf8DecodeRune]
      rw [if_neg (by omega), if_neg (by omega), if_neg (by omega), if_pos (by omega)]
      have hacc : utf8AcceptFirst3 (0xE0 + r / 0x1000) (0x80 + r / 0x40 % 0x40) = true := by
        unfold utf8AcceptFirst3 utf8Cont
        push_neg at h2
        by_cases hc1 : 0xE0 + r / 0x1000 = 0xE0
        · rw [if_pos hc1]
          simp only [Bool.and_eq_true, decide_eq_true_eq]
          omega
        · rw [if_neg hc1]
          by_cases hc2 : 0xE0 + r / 0x1000 = 0xED
          · rw [if_pos hc2]
            simp only [Bool.and_eq_true, decide_eq_true_eq]
            omega
          · rw [if_neg hc2]
            simp only [Bool.and_eq_true, decide_eq_true_eq]
            omega
      have hcont : utf8Cont (0x80 + r % 0x40) = true := by
        unfold utf8Cont
        simp only [Bool.and_eq_true, decide_eq_true_eq]
        omega
      rw [show (utf8AcceptFirst3 (0xE0 + r / 0x1000) (0x80 + r / 0x40 % 0x40) &&
        utf8Cont (0x80 + r % 0x40)) = true from by simp [hacc, hcont]]
      rw [if_pos rfl]
      have hv : (0xE0 + r / 0x1000 - 0xE0) * 0x1000 + (0x80 + r / 0x40 % 0x40 - 0x80) * 0x40 +
          (0x80 + r % 0x40 - 0x80) = r := by omega
      rw [hv]

theorem utf8Valid_encode_append (r : Nat) (l : GoStr) (h1 : r < 0x10000)
    (h2 : ¬(0xD800 ≤ r ∧ r ≤ 0xDFFF)) :
    utf8Valid (utf8EncodeRune r ++ l) = utf8Valid l := by
  have hdec := utf8DecodeRune_encode_append r l h1 h2
  rcases he : utf8EncodeRune r with _ | ⟨b0, etail⟩
  · exact absurd he (utf8EncodeRune_ne_nil r)
  · rw [he] at hdec
    show utf8Valid (b0 :: (etail ++ l)) = utf8Valid l
    rw [utf8Valid_cons]
    simp only [List.cons_append] at hdec
    rw [hdec]
    simp only [List.length_cons, Nat.add_sub_cancel]
    rw [List.drop_left]

theorem utf8Runes_encode_append (r : Nat) (l : GoStr) (h1 : r < 0x10000)
    (h2 : ¬(0xD800 ≤ r ∧ r ≤ 0xDFFF)) :
    utf8Runes (utf8EncodeRune r ++ l) = r :: utf8Runes l := by
  have hdec := utf8DecodeRune_encode_append r l h1 h2
  rcases he : utf8EncodeRune r with _ | ⟨b0, etail⟩
  · exact absurd he (utf8EncodeRune_ne_nil r)
  · rw [he] at hdec
    show utf8Runes (b0 :: (etail ++ l)) = r :: utf8Runes l
    rw [utf8Runes_cons]
    simp only [List.cons_append] at hdec
    rw [hdec]
    simp only [List.length_cons, Nat.add_sub_cancel]
    rw [List.drop_left]

theorem utf8EncodeRune_head_large {r b0 : Nat} {etail : GoStr} (h3 : 0x80 ≤ r)
    (he : utf8EncodeRune r = b0 :: etail) : ¬ b0 < 0x80 := by
  unfold utf8EncodeRune at he
  rw [if_neg (by omega)] at he
  split at he <;> rename_i hr
  · injection he with hh _
    omega
  · split at he
    · injection he with hh _
      omega
    · injection he with hh _
      omega

theorem charmapEncode_encode_append (enc : Nat → Option Nat) (r : Nat) (l : GoStr)
    (h1 : r < 0x10000) (h2 : ¬(0xD800 ≤ r ∧ r ≤ 0xDFFF)) (h3 : 0x80 ≤ r) :
    charmapEncode enc (utf8EncodeRune r ++ l) =
      match enc r with
      | none => ([], false)
      | some b => (b :: (charmapEncode enc l).1, (charmapEncode enc l).2) := by
  have hdec := utf8DecodeRune_encode_append r l h1 h2
  rcases he : utf8EncodeRune r with _ | ⟨b0, etail⟩
  · exact absurd he (utf8EncodeRune_ne_nil r)
  · have hb0 := utf8EncodeRune_head_large h3 he
    rw [he] at hdec
    show charmapEncode enc (b0 :: (etail ++ l)) = _
    rw [charmapEncode_cons, if_neg hb0]
    simp only [List.cons_append] at hdec
    rw [hdec]
    simp only [List.length_cons, Nat.add_sub_cancel]
    rw [List.drop_left]

/-! ### Scoring strings built from rune lists -/

theorem utf8Valid_utf8Str (RS : List Nat)
    (h : ∀ r ∈ RS, r < 0x10000 ∧ ¬(0xD800 ≤ r ∧ r ≤ 0xDFFF)) :
    utf8Valid (utf8Str RS) = true := by
  induction RS with
  | nil => rfl
  | cons r rs ih =>
    show utf8Valid (utf8EncodeRune r ++ utf8Str rs) = true
    rw [utf8Valid_encode_append r _ (h r (by simp)).1 (h r (by simp)).2]
    exact ih fun x hx => h x (by simp [hx])

theorem utf8Runes_utf8Str (RS : List Nat)
    (h : ∀ r ∈ RS, r < 0x10000 ∧ ¬(0xD800 ≤ r ∧ r ≤ 0xDFFF)) :
    utf8Runes (utf8Str RS) = RS := by
  induction RS with
  | nil => rfl
  | cons r rs ih =>
    show utf8Runes (utf8EncodeRune r ++ utf8Str rs) = r :: rs
    rw [utf8Runes_encode_append r _ (h r (by simp)).1 (h r (by simp)).2]
    rw [ih fun x hx => h x (by simp [hx])]

theorem countCyr_utf8Str (RS : List Nat)
    (h : ∀ r ∈ RS, r < 0x10000 ∧ ¬(0xD800 ≤ r ∧ r ≤ 0xDFFF)) :
    countCyr (utf8Str RS) =
      if RS.length = 0 then 1
      else ((RS.length - RS.countP (fun c => !goodRune c) : ℕ) : ℚ) / RS.length := by
  unfold countCyr
  rw [utf8Valid_utf8Str RS h, utf8Runes_utf8Str RS h]
  rfl

theorem countCyr_utf8Str_allgood (RS : List Nat)
    (h : ∀ r ∈ RS, r < 0x10000 ∧ ¬(0xD800 ≤ r ∧ r ≤ 0xDFFF))
    (hgood : ∀ r ∈ RS, goodRune r = true) (hne : RS ≠ []) :
    countCyr (utf8Str RS) = 1 := by
  have hlen : RS.length ≠ 0 := fun hh => hne (List.length_eq_zero.mp hh)
  rw [countCyr_utf8Str RS h, if_neg hlen]
  have hbad : RS.countP (fun c => !goodRune c) = 0 := by
    rw [List.countP_eq_zero]
    intro a ha
    simp [hgood a ha]
  rw [hbad, Nat.sub_zero]
  exact div_self (by exact_mod_cast hlen)

theorem countCyr_utf8Str_lt_one (RS : List Nat)
    (h : ∀ r ∈ RS, r < 0x10000 ∧ ¬(0xD800 ≤ r ∧ r ≤ 0xDFFF))
    (x : Nat) (hx : x ∈ RS) (hbad : goodRune x = false) :
    countCyr (utf8Str RS) < 1 := by
  have hne : RS ≠ [] := by rintro rfl; simp at hx
  have hlen : 0 < RS.length := List.length_pos.mpr hne
  rw [countCyr_utf8Str RS h, if_neg (by omega)]
  rw [div_lt_one (by exact_mod_cast hlen)]
  have hpos : 0 < RS.countP (fun c => !goodRune c) :=
    List.countP_pos_iff.mpr ⟨x, hx, by simp [hbad]⟩
  exact_mod_cast (by omega : RS.length - RS.countP (fun c => !goodRune c) < RS.length)

/-! ### Strings made of Windows-1251 high bytes (0xC0–0xFF) -/

theorem utf8Str_c0ff_cons {w : Nat} (h1 : 0xC0 ≤ w) (h2 : w ≤ 0xFF) (W : List Nat) :
    utf8Str (w :: W) = 0xC3 :: (w - 0x40) :: utf8Str W := by
  show utf8EncodeRune w ++ utf8Str W = _
  rw [utf8EncodeRune_c0ff h1 h2]
  rfl

theorem utf8Str_c0ff_length (W : List Nat) (hW : ∀ w ∈ W, 0xC0 ≤ w ∧ w ≤ 0xFF) :
    (utf8Str W).length = 2 * W.length := by
  induction W with
  | nil => rfl
  | cons w ws ih =>
    rw [utf8Str_c0ff_cons (hW w (by simp)).1 (hW w (by simp)).2]
    simp only [List.length_cons, ih fun x hx => hW x (by simp [hx])]
    omega

theorem mem_utf8Str_c0ff (W : List Nat) (hW : ∀ w ∈ W, 0xC0 ≤ w ∧ w ≤ 0xFF) :
    ∀ b ∈ utf8Str W, b = 0xC3 ∨ (0x80 ≤ b ∧ b ≤ 0xBF) := by
  induction W with
  | nil => intro b hb; simp [utf8Str] at hb
  | cons w ws ih =>
    intro b hb
    rw [utf8Str_c0ff_cons (hW w (by simp)).1 (hW w (by simp)).2] at hb
    simp only [List.mem_cons] at hb
    rcases hb with rfl | rfl | hb
    · left; rfl
    · right; have := hW w (by simp); omega
    · exact ih (fun x hx => hW x (by simp [hx])) b hb

theorem sub40_mem_utf8Str {w : Nat} (W : List Nat) (hW : ∀ x ∈ W, 0xC0 ≤ x ∧ x ≤ 0xFF)
    (hw : w ∈ W) : (w - 0x40) ∈ utf8Str W := by
  induction W with
  | nil => simp at hw
  | cons v ws ih =>
    rw [utf8Str_c0ff_cons (hW v (by simp)).1 (hW v (by simp)).2]
    simp only [List.mem_cons] at hw ⊢
    rcases hw with rfl | hw
    · right; left; rfl
    · right; right; exact ih (fun x hx => hW x (by simp [hx])) hw

theorem utf8Valid_all_c0ff (W : GoStr) (hW : ∀ w ∈ W, 0xC0 ≤ w ∧ w ≤ 0xFF)
    (hne : W ≠ []) : utf8Valid W = false := by
  rcases W with _ | ⟨w, rest⟩
  · exact absurd rfl hne
  · have hw := hW w (by simp)
    have hdec : utf8DecodeRune (w :: rest) = none := by
      simp only [utf8DecodeRune]
      rw [if_neg (by omega)]
      by_cases hc2 : w < 0xC2
      · rw [if_pos hc2]
      · rw [if_neg hc2]
        by_cases he0 : w < 0xE0
        · rw [if_pos he0]
          rcases rest with _ | ⟨b1, rest2⟩
          · rfl
          · have hb1 := hW b1 (by simp)
            simp [utf8Cont]
            omega
        · rw [if_neg he0]
          by_cases hf0 : w < 0xF0
          · rw [if_pos hf0]
            rcases rest with _ | ⟨b1, _ | ⟨b2, rest3⟩⟩
            · rfl
            · rfl
            · have hb1 := hW b1 (by simp)
              have hacc : utf8AcceptFirst3 w b1 = false := by
                unfold utf8AcceptFirst3 utf8Cont
                by_cases hx1 : w = 0xE0
                · rw [if_pos hx1]; simp; omega
                · rw [if_neg hx1]
                  by_cases hx2 : w = 0xED
                  · rw [if_pos hx2]; simp; omega
                  · rw [if_neg hx2]; simp; omega
              simp [hacc]
          · rw [if_neg hf0]
            by_cases hf5 : w < 0xF5
            · rw [if_pos hf5]
              rcases rest with _ | ⟨b1, _ | ⟨b2, _ | ⟨b3, rest4⟩⟩⟩
              · rfl
              · rfl
              · rfl
              · have hb1 := hW b1 (by simp)
                have hacc : utf8AcceptFirst4 w b1 = false := by
                  unfold utf8AcceptFirst4 utf8Cont
                  by_cases hx1 : w = 0xF0
                  · rw [if_pos hx1]; simp; omega
                  · rw [if_neg hx1]
                    by_cases hx2 : w = 0xF4
                    · rw [if_pos hx2]; simp; omega
                    · rw [if_neg hx2]; simp; omega
                simp [hacc]
            · rw [if_neg hf5]
    rw [utf8Valid_cons, hdec]

theorem countCyr_all_c0ff (W : GoStr) (hW : ∀ w ∈ W, 0xC0 ≤ w ∧ w ≤ 0xFF)
    (hne : W ≠ []) : countCyr W = 0 := by
  simp [countCyr, utf8Valid_all_c0ff W hW hne]

/-! ### The pipeline executor on specific step outcomes -/

theorem decode_cons_ok {src dst : GoStr} {f : StringTrans} {rest : List StringTrans}
    (h : f src = (dst, true)) : decode src (f :: rest) = decode dst rest := by
  simp [decode, h]

theorem decode_cons_retry_fail {src u v : GoStr} {f : StringTrans} {rest : List StringTrans}
    (h1 : f src = (u, false)) (hlen : src.length > 4) (h2 : f src.dropLast = (v, false)) :
    decode src (f :: rest) = none := by
  simp [decode, h1, h2, hlen]

/-! ### The four pipelines on a mangled all-Cyrillic string -/

theorem goodRune_core {r : Nat} (h1 : 0x410 ≤ r) (h2 : r ≤ 0x44F) : goodRune r = true := by
  unfold goodRune
  simp
  omega

theorem winEncode_utf8Str_core (T : List Nat) (hT : ∀ r ∈ T, 0x410 ≤ r ∧ r ≤ 0x44F) :
    charmapEncode win1251EncodeRune (utf8Str T) = (T.map (fun r => r - 0x350), true) := by
  induction T with
  | nil => rfl
  | cons r rs ih =>
    have hr := hT r (by simp)
    show charmapEncode win1251EncodeRune (utf8EncodeRune r ++ utf8Str rs) = _
    rw [charmapEncode_encode_append _ r _ (by omega) (by omega) (by omega)]
    rw [win1251EncodeRune_core r (by omega) (by omega)]
    rw [ih fun x hx => hT x (by simp [hx])]
    rfl

theorem mangle_core (T : List Nat) (hT : ∀ r ∈ T, 0x410 ≤ r ∧ r ≤ 0x44F) :
    mangle T = utf8Str (T.map fun r => r - 0x350) := by
  unfold mangle iso8859DecodeStr
  rw [winEncode_utf8Str_core T hT]

theorem isoEncode_utf8Str_c0ff (W : List Nat) (hW : ∀ w ∈ W, 0xC0 ≤ w ∧ w ≤ 0xFF) :
    charmapEncode iso8859EncodeRune (utf8Str W) = (W, true) := by
  induction W with
  | nil => rfl
  | cons w ws ih =>
    have hw := hW w (by simp)
    show charmapEncode iso8859EncodeRune (utf8EncodeRune w ++ utf8Str ws) = _
    rw [charmapEncode_encode_append _ w _ (by omega) (by omega) (by omega)]
    rw [show iso8859EncodeRune w = some w from by
      unfold iso8859EncodeRune; rw [if_pos (by omega)]]
    rw [ih fun x hx => hW x (by simp [hx])]

theorem winEncode_c0ff_head_fails (w : Nat) (hw1 : 0xC0 ≤ w) (hw2 : w ≤ 0xFF) (l : GoStr) :
    charmapEncode win1251EncodeRune (utf8EncodeRune w ++ l) = ([], false) := by
  rw [charmapEncode_encode_append _ w l (by omega) (by omega) (by omega)]
  rw [win1251EncodeRune_c0ff w (by omega) (by omega)]

theorem utf8Str_append (A B : List Nat) : utf8Str (A ++ B) = utf8Str A ++ utf8Str B := by
  induction A with
  | nil => rfl
  | cons r rs ih =>
    show utf8EncodeRune r ++ utf8Str (rs ++ B) = (utf8EncodeRune r ++ utf8Str rs) ++ utf8Str B
    rw [ih, List.append_assoc]

theorem utf8Str_ne_nil_of_ne_nil {W : List Nat} (h : W ≠ []) : utf8Str W ≠ [] := by
  rcases W with _ | ⟨w, ws⟩
  · exact absurd rfl h
  · show utf8EncodeRune w ++ utf8Str ws ≠ []
    simp [utf8EncodeRune_ne_nil w]

/-! ### Trimming a mangled all-Cyrillic string is the identity -/

theorem findStart_hit (s : GoStr) (lim i : Nat) (h1 : lim ≤ i)
    (h2 : runeStart (s.getD i 0) = true) : findStart s lim i = some i := by
  cases i with
  | zero =>
    have h0 : lim = 0 := Nat.le_zero.mp h1
    subst h0
    simp only [findStart]
    rw [if_neg (by omega), if_pos h2]
  | succ j =>
    simp only [findStart]
    rw [if_neg (by omega), if_pos h2]

theorem decodeLastRune_append_pair (P : GoStr) (x : Nat) (hx1 : 0x80 ≤ x) (hx2 : x ≤ 0xBF) :
    decodeLastRune (P ++ [0xC3, x]) = (x + 0x40, 2) := by
  have hlast : (P ++ [0xC3, x]).getLast? = some x := by
    rw [show P ++ [0xC3, x] = (P ++ [0xC3]) ++ [x] from by simp]
    exact List.getLast?_concat _
  have hn : (P ++ [0xC3, x]).length = P.length + 2 := by simp
  have hfs : findStart (P ++ [0xC3, x]) (P.length + 2 - 4) P.length = some P.length := by
    apply findStart_hit
    · omega
    · have hg : (P ++ [0xC3, x]).getD P.length 0 = 0xC3 := by
        rw [List.getD_eq_getElem?_getD]
        rw [List.getElem?_append_right (le_refl _)]
        simp
      rw [hg]
      decide
  have hdrop : (P ++ [0xC3, x]).drop P.length = [0xC3, x] := List.drop_left _ _
  have hdec : utf8DecodeRune [0xC3, x] = some (x + 0x40, 2) := by
    simp only [utf8DecodeRune]
    rw [if_neg (by omega), if_neg (by omega), if_pos (by omega)]
    rw [if_pos (by unfold utf8Cont; simp; omega)]
    rw [show (0xC3 - 0xC0) * 0x40 + (x - 0x80) = x + 0x40 from by omega]
  unfold decodeLastRune
  rw [hlast]
  simp only
  rw [if_neg (by omega)]
  rw [hn]
  rw [show P.length + 2 - 2 = P.length from by omega]
  rw [if_pos (by omega : 2 ≤ P.length + 2)]
  rw [hfs]
  simp only
  rw [hdrop, hdec]
  simp

theorem trimRightSpace_no_space (s : GoStr)
    (h : isSpaceRune (decodeLastRune s).1 = false) : trimRightSpace s = s := by
  cases s with
  | nil => rfl
  | cons b0 rest =>
    show trimRightSpaceF (rest.length + 1) (b0 :: rest) = b0 :: rest
    simp only [trimRightSpaceF]
    rw [if_neg (by simp [h])]

theorem trimLeftSpace_c0ff (W : List Nat) (hW : ∀ w ∈ W, 0xC0 ≤ w ∧ w ≤ 0xFF) :
    trimLeftSpace (utf8Str W) = utf8Str W := by
  rcases W with _ | ⟨w, ws⟩
  · rfl
  · have hw := hW w (by simp)
    have hdec := utf8DecodeRune_encode_append w (utf8Str ws) (by omega) (by omega)
    rw [utf8EncodeRune_c0ff hw.1 hw.2] at hdec
    rw [utf8Str_c0ff_cons hw.1 hw.2]
    rw [trimLeftSpace_cons]
    simp only [List.cons_append, List.nil_append] at hdec
    rw [hdec]
    simp only
    rw [if_neg (by simp [isSpaceRune_c0ff w (by omega) hw.1])]

theorem trimRightSpace_c0ff (W : List Nat) (hW : ∀ w ∈ W, 0xC0 ≤ w ∧ w ≤ 0xFF)
    (hne : W ≠ []) : trimRightSpace (utf8Str W) = utf8Str W := by
  obtain ⟨W0, w, rfl⟩ : ∃ W0 w, W = W0 ++ [w] := by
    rcases List.eq_nil_or_concat W with rfl | ⟨L, b, hh⟩
    · exact absurd rfl hne
    · exact ⟨L, b, by simpa using hh⟩
  have hwm := hW w (by simp)
  have hsplit : utf8Str (W0 ++ [w]) = utf8Str W0 ++ [0xC3, w - 0x40] := by
    rw [utf8Str_append]
    congr 1
    rw [utf8Str_c0ff_cons hwm.1 hwm.2]
    rfl
  rw [hsplit]
  apply trimRightSpace_no_space
  rw [decodeLastRune_append_pair (utf8Str W0) (w - 0x40) (by omega) (by omega)]
  simp only
  rw [show w - 0x40 + 0x40 = w from by omega]
  exact isSpaceRune_c0ff w (by omega) hwm.1

theorem trimSpace_c0ff (W : List Nat) (hW : ∀ w ∈ W, 0xC0 ≤ w ∧ w ≤ 0xFF)
    (hne : W ≠ []) : trimSpace (utf8Str W) = utf8Str W := by
  unfold trimSpace
  rw [trimLeftSpace_c0ff W hW]
  exact trimRightSpace_c0ff W hW hne

/-- The "enc-iso-win" pipeline fails outright on a string of high-byte
runes: the Windows-1251 encoding step fails on the first rune, the string is
longer than 4 bytes, and the one-byte-truncated retry fails the same way. -/
theorem encIsoWin_fails (w1 : Nat) (W2 : List Nat) (hw1 : 0xC0 ≤ w1 ∧ w1 ≤ 0xFF)
    (hW2 : ∀ w ∈ W2, 0xC0 ≤ w ∧ w ≤ 0xFF) (hW2len : 2 ≤ W2.length) :
    decode (utf8Str (w1 :: W2)) [winEncoderT, isoEncoderT, winDecoderT] = none := by
  have hW2ne : W2 ≠ [] := by
    rintro rfl
    simp at hW2len
  have hne : utf8Str W2 ≠ [] := utf8Str_ne_nil_of_ne_nil hW2ne
  have hshape : utf8Str (w1 :: W2) = utf8EncodeRune w1 ++ utf8Str W2 := rfl
  apply decode_cons_retry_fail (u := []) (v := [])
  · rw [hshape]
    exact winEncode_c0ff_head_fails w1 hw1.1 hw1.2 _
  · rw [utf8Str_c0ff_length (w1 :: W2) (by
      intro w hw
      rcases List.mem_cons.mp hw with rfl | h
      · exact hw1
      · exact hW2 w h)]
    simp only [List.length_cons]
    omega
  · rw [hshape, List.dropLast_append_of_ne_nil _ hne]
    exact winEncode_c0ff_head_fails w1 hw1.1 hw1.2 _

theorem searchStep_fst (t : ℚ) (value : GoStr) (acc : List GoStr × ℚ)
    (tl : List StringTrans) :
    (searchStep t value acc tl).1 =
      match decode value tl with
      | none => acc.1
      | some val => if countCyr val < t then acc.1 else acc.1 ++ [val] := by
  cases h : decode value tl with
  | none => simp [searchStep_of_none h]
  | some val => simp only [searchStep_of_some h]

/-- C1 (amended): for Cyrillic text `T` of at least 3 scalars, all in the
core block U+0410–U+044F, at least one of which is not и (U+0438) or
ш (U+0448), Candidate Search at threshold 1 on the mangled text (Windows-1251
bytes of `T` re-read as ISO 8859-1) yields exactly one qualifying candidate,
the UTF-8 string of `T`, produced by the single-roundtrip "iso-win" pipeline
(which scores 1); the "win" and "iso" pipelines score below 1 and the
"enc-iso-win" pipeline fails, and the field is corrected to a UTF-8 frame
holding `T`.  The unamended claim, quantifying over all accepted-alphabet
`T`, is refuted by `claim1_counterexample`. -/
theorem claim1_roundtrip_amended (T : List Nat)
    (hT : ∀ r ∈ T, 0x410 ≤ r ∧ r ≤ 0x44F)
    (hlen : 3 ≤ T.length)
    (hx : ∃ r ∈ T, r ≠ 0x438 ∧ r ≠ 0x448) :
    (runSearch 1 (mangle T)).1 = [utf8Str T] ∧
    decode (mangle T) [isoEncoderT, winDecoderT] = some (utf8Str T) ∧
    countCyr (utf8Str T) = 1 ∧
    decode (mangle T) [winEncoderT, isoEncoderT, winDecoderT] = none ∧
    (∀ val, decode (mangle T) [winDecoderT] = some val → countCyr val < 1) ∧
    (∀ val, decode (mangle T) [isoEncoderT] = some val → countCyr val < 1) ∧
    convertFrame 1 ⟨EncodingISO, mangle T⟩ = some ⟨EncodingUTF8, utf8Str T⟩ := by
  obtain ⟨r0, hr0, hr01, hr02⟩ := hx
  have hTne : T ≠ [] := by rintro rfl; simp at hr0
  have hW : ∀ w ∈ T.map (fun r => r - 0x350), 0xC0 ≤ w ∧ w ≤ 0xFF := by
    intro w hw
    obtain ⟨r, hr, rfl⟩ := List.mem_map.mp hw
    have := hT r hr
    omega
  have hWne : T.map (fun r => r - 0x350) ≠ [] := by
    simpa using hTne
  have hM : mangle T = utf8Str (T.map (fun r => r - 0x350)) := mangle_core T hT
  -- pipeline 1 ("win")
  have hp1 : decode (mangle T) [winDecoderT] =
      some (utf8Str ((utf8Str (T.map (fun r => r - 0x350))).map win1251DecodeByte)) := by
    rw [hM, decode_cons_ok (rfl :
      winDecoderT (utf8Str (T.map (fun r => r - 0x350))) = _)]
    rfl
  have hg1 : countCyr
      (utf8Str ((utf8Str (T.map (fun r => r - 0x350))).map win1251DecodeByte)) < 1 := by
    have hval1 : ∀ y ∈ (utf8Str (T.map (fun r => r - 0x350))).map win1251DecodeByte,
        y < 0x10000 ∧ ¬(0xD800 ≤ y ∧ y ≤ 0xDFFF) := by
      intro y hy
      obtain ⟨b, hb, rfl⟩ := List.mem_map.mp hy
      have hbr := mem_utf8Str_c0ff _ hW b hb
      have hb256 : b < 0x100 := by rcases hbr with rfl | h <;> omega
      exact win1251DecodeByte_scalar b hb256
    have hw0 : (r0 - 0x350) ∈ T.map (fun r => r - 0x350) := List.mem_map_of_mem _ hr0
    have hmem : (r0 - 0x350 - 0x40) ∈ utf8Str (T.map (fun r => r - 0x350)) :=
      sub40_mem_utf8Str _ hW hw0
    have hxmem : win1251DecodeByte (r0 - 0x350 - 0x40) ∈
        (utf8Str (T.map (fun r => r - 0x350))).map win1251DecodeByte :=
      List.mem_map_of_mem _ hmem
    have hr0r := hT r0 hr0
    have hbad : goodRune (win1251DecodeByte (r0 - 0x350 - 0x40)) = false := by
      apply win1251DecodeByte_mid_bad <;> omega
    exact countCyr_utf8Str_lt_one _ hval1 _ hxmem hbad
  -- pipeline 2 ("enc-iso-win")
  have hp2 : decode (mangle T) [winEncoderT, isoEncoderT, winDecoderT] = none := by
    rw [hM]
    rcases T with _ | ⟨t1, T2⟩
    · simp at hlen
    · simp only [List.map_cons]
      apply encIsoWin_fails (t1 - 0x350) (T2.map fun r => r - 0x350)
      · have := hT t1 (by simp)
        constructor <;> omega
      · intro w hw
        exact hW w (by
          simp only [List.map_cons, List.mem_cons]
          right
          exact hw)
      · simp only [List.length_map]
        simp only [List.length_cons] at hlen
        omega
  -- pipeline 3 ("iso-win")
  have hmapid : (T.map (fun r => r - 0x350)).map win1251DecodeByte = T := by
    rw [List.map_map]
    have hcg : ∀ r ∈ T, (win1251DecodeByte ∘ fun r => r - 0x350) r = id r := by
      intro r hr
      have := hT r hr
      simp only [Function.comp_apply, id_eq,
        win1251DecodeByte_c0ff (show 0xC0 ≤ r - 0x350 by omega)]
      omega
    rw [List.map_congr_left hcg, List.map_id]
  have hp3 : decode (mangle T) [isoEncoderT, winDecoderT] = some (utf8Str T) := by
    rw [hM, decode_cons_ok (show isoEncoderT (utf8Str (T.map (fun r => r - 0x350))) =
        (T.map (fun r => r - 0x350), true) from isoEncode_utf8Str_c0ff _ hW),
      decode_cons_ok (rfl : winDecoderT (T.map (fun r => r - 0x350)) = _)]
    rw [show utf8Str ((T.map (fun r => r - 0x350)).map win1251DecodeByte) = utf8Str T from by
      rw [hmapid]]
    rfl
  have hg3 : countCyr (utf8Str T) = 1 := by
    apply countCyr_utf8Str_allgood T _ _ hTne
    · intro r hr
      have := hT r hr
      omega
    · intro r hr
      exact goodRune_core (hT r hr).1 (hT r hr).2
  -- pipeline 4 ("iso")
  have hp4 : decode (mangle T) [isoEncoderT] = some (T.map (fun r => r - 0x350)) := by
    rw [hM, decode_cons_ok (show isoEncoderT (utf8Str (T.map (fun r => r - 0x350))) =
        (T.map (fun r => r - 0x350), true) from isoEncode_utf8Str_c0ff _ hW)]
    rfl
  have hg4 : countCyr (T.map (fun r => r - 0x350)) < 1 := by
    rw [countCyr_all_c0ff _ hW hWne]
    norm_num
  -- trimming is the identity on the mangled text
  have htrim : trimSpace (mangle T) = mangle T := by
    rw [hM]
    exact trimSpace_c0ff _ hW hWne
  -- candidate list
  have hcands : (runSearch 1 (mangle T)).1 = [utf8Str T] := by
    show (searchStep 1 (mangle T) (searchStep 1 (mangle T) (searchStep 1 (mangle T)
      (searchStep 1 (mangle T) ([], 0) [winDecoderT])
      [winEncoderT, isoEncoderT, winDecoderT])
      [isoEncoderT, winDecoderT]) [isoEncoderT]).1 = [utf8Str T]
    rw [searchStep_fst]
    simp only [hp4]
    rw [if_pos hg4]
    rw [searchStep_fst]
    simp only [hp3]
    rw [if_neg (by rw [hg3]; exact lt_irrefl 1)]
    rw [searchStep_fst]
    simp only [hp2]
    rw [searchStep_fst]
    simp only [hp1]
    rw [if_pos hg1]
    rfl
  have hconv : convertFrame 1 ⟨EncodingISO, mangle T⟩ = some ⟨EncodingUTF8, utf8Str T⟩ := by
    unfold convertFrame
    rw [show trimSpace (⟨EncodingISO, mangle T⟩ : TextFrame).Text = mangle T from htrim]
    rw [show runSearch 1 (mangle T) =
      ([utf8Str T], (runSearch 1 (mangle T)).2) from by rw [← hcands]]
  refine ⟨hcands, hp3, hg3, hp2, ?_, ?_, hconv⟩
  · intro val hval
    rw [hp1] at hval
    injection hval with hh
    rw [← hh]
    exact hg1
  · intro val hval
    rw [hp4] at hval
    injection hval with hh
    rw [← hh]
    exact hg4

/-- C1 counterexample: for T = "ииии" (four characters, every scalar in the
accepted set), Candidate Search on the mangled text at threshold 1 yields
TWO qualifying candidates (the "win" pipeline also scores 1 on it), so the
outcome is ambiguous and no correction is produced — not the single
`single-roundtrip` acceptance the claim asserts. -/
theorem claim1_counterexample :
    (∀ r ∈ [0x438, 0x438, 0x438, 0x438], 0x410 ≤ r ∧ r ≤ 0x44F) ∧
    (runSearch 1 (mangle [0x438, 0x438, 0x438, 0x438])).1.length = 2 ∧
    convertFrame 1 ⟨EncodingISO, mangle [0x438, 0x438, 0x438, 0x438]⟩ = none :=
  ⟨by decide, by with_unfolding_all decide, by with_unfolding_all decide⟩

/-- Witness for C1 (amended) at T = "Привет": the mangled field is uniquely
recovered to "Привет" by the single-roundtrip pipeline. -/
theorem claim1_witness :
    (runSearch 1 (mangle [0x41F, 0x440, 0x438, 0x432, 0x435, 0x442])).1 =
      [utf8Str [0x41F, 0x440, 0x438, 0x432, 0x435, 0x442]] ∧
    convertFrame 1 ⟨EncodingISO, mangle [0x41F, 0x440, 0x438, 0x432, 0x435, 0x442]⟩ =
      some ⟨EncodingUTF8, utf8Str [0x41F, 0x440, 0x438, 0x432, 0x435, 0x442]⟩ := by
  have h := claim1_roundtrip_amended [0x41F, 0x440, 0x438, 0x432, 0x435, 0x442]
    (by decide) (by decide) (by decide)
  exact ⟨h.1, h.2.2.2.2.2.2⟩

end FixMp3
